import Mathlib

/-!
Verification of the position-synchronization and active-index engine of the
chatgpt-timeline extension (`src/extension/content.js`), shallowly embedded in
Lean.  JS numbers are modelled as rationals; DOM reads become explicit
parameters; the event-driven active-marker logic becomes an explicit state
machine.
-/

namespace ChatGPTTimeline

/-! ## GeometryEngine: minimum-gap enforcement (`applyMinGap`, content.js 1046–1078) -/

/-- The forward pass of `applyMinGap`: starting from the previous output
value `prev`, each element becomes `max x (prev + gap)`
(JS: `out[i] = Math.max(positions[i], out[i-1] + gap)`). -/
def forwardFrom (gap : ℚ) : ℚ → List ℚ → List ℚ
  | _, [] => []
  | prev, x :: xs =>
      let y := max x (prev + gap)
      y :: forwardFrom gap y xs

/-- The backward pass of `applyMinGap`, rendered as a right-recursion over the
list (the JS loop runs `i = n-2 … 0` downward): the last element is replaced by
`maxTop` (JS: `out[n - 1] = maxTop`), and each earlier element becomes
`min x (next - gap)` where `next` is the updated element to its right
(JS: `out[i] = Math.min(out[i], out[i+1] - gap)`). -/
def backwardPass (gap maxTop : ℚ) : List ℚ → List ℚ
  | [] => []
  | [_] => [maxTop]
  | x :: y :: xs =>
      let rest := backwardPass gap maxTop (y :: xs)
      min x (rest.headI - gap) :: rest

/-- The final clamp loop of `applyMinGap`: first raise values below `minTop`,
then cap values above `maxTop`
(JS: `if (out[i] < minTop) out[i] = minTop; if (out[i] > maxTop) out[i] = maxTop`). -/
def finalClamp (minTop maxTop x : ℚ) : ℚ := min (max x minTop) maxTop

/-- The passes of `applyMinGap` before its final clamp loop: clamp the first
element, run the forward pass, and if the last output exceeds `maxTop` run the
backward pass (and, if that leaves the first element below `minTop`, restore
`out[0] = minTop` and repeat the forward pass over the remaining elements). -/
def applyMinGapCore (positions : List ℚ) (minTop maxTop gap : ℚ) : List ℚ :=
  match positions with
  | [] => []
  | p :: ps =>
      let h := max minTop (min p maxTop)
      let out1 := h :: forwardFrom gap h ps
      if maxTop < out1.getLastD 0 then
        let bw := backwardPass gap maxTop out1
        if bw.headI < minTop then
          minTop :: forwardFrom gap minTop bw.tail
        else bw
      else out1

/-- `applyMinGap(positions, minTop, maxTop, gap)` from content.js 1046–1078:
the two-pass compress/stretch followed by the final clamp of every value. -/
def applyMinGap (positions : List ℚ) (minTop maxTop gap : ℚ) : List ℚ :=
  (applyMinGapCore positions minTop maxTop gap).map (finalClamp minTop maxTop)

/-- `getEffectiveMinGap(usableHeight, count)` from content.js 1035–1043, with
the CSS-var read `getMinGap()` passed in as `raw` (`Number.isFinite` always
holds for rationals). -/
def getEffectiveMinGap (raw usableHeight : ℚ) (count : ℕ) : ℚ :=
  if count ≤ 1 then 0
  else if usableHeight ≤ 0 then max 0 raw
  else max 0 (min raw (usableHeight / max 1 ((count : ℚ) - 1)))

/-! ### Length lemmas -/

theorem forwardFrom_length (gap : ℚ) :
    ∀ (prev : ℚ) (xs : List ℚ), (forwardFrom gap prev xs).length = xs.length := by
  intro prev xs
  induction xs generalizing prev with
  | nil => rfl
  | cons x xs ih => simpa [forwardFrom] using ih _

theorem backwardPass_length (gap maxTop : ℚ) :
    ∀ (xs : List ℚ), (backwardPass gap maxTop xs).length = xs.length := by
  intro xs
  induction xs with
  | nil => rfl
  | cons x xs ih =>
      cases xs with
      | nil => rfl
      | cons y ys => simpa [backwardPass] using ih

theorem backwardPass_ne_nil (gap maxTop : ℚ) {xs : List ℚ} (h : xs ≠ []) :
    backwardPass gap maxTop xs ≠ [] := by
  intro hcon
  have := backwardPass_length gap maxTop xs
  rw [hcon] at this
  exact h (List.length_eq_zero.mp this.symm)

theorem applyMinGapCore_length (positions : List ℚ) (minTop maxTop gap : ℚ) :
    (applyMinGapCore positions minTop maxTop gap).length = positions.length := by
  cases positions with
  | nil => rfl
  | cons p ps =>
      simp only [applyMinGapCore]
      split
      · split
        · simp [forwardFrom_length, backwardPass_length, List.length_tail]
        · simp [backwardPass_length, forwardFrom_length]
      · simp [forwardFrom_length]

theorem applyMinGap_length (positions : List ℚ) (minTop maxTop gap : ℚ) :
    (applyMinGap positions minTop maxTop gap).length = positions.length := by
  simp [applyMinGap, applyMinGapCore_length]

/-! ### Chain (adjacent-gap) lemmas -/

/-- The forward pass leaves every adjacent pair at distance at least `gap`,
including the pair formed with the start value. -/
theorem forwardFrom_chain (gap : ℚ) :
    ∀ (prev : ℚ) (xs : List ℚ),
      List.Chain (fun a b => a + gap ≤ b) prev (forwardFrom gap prev xs) := by
  intro prev xs
  induction xs generalizing prev with
  | nil => exact List.Chain.nil
  | cons x xs ih => exact List.Chain.cons (le_max_right _ _) (ih _)

/-- The head of the backward pass output of a nonempty list is at most
`maxTop - (length-1) · gap` is not needed; what we use: the output's adjacent
pairs are at distance at least `gap`. -/
theorem backwardPass_chain (gap maxTop : ℚ) :
    ∀ (xs : List ℚ),
      List.Chain' (fun a b => a + gap ≤ b) (backwardPass gap maxTop xs) := by
  intro xs
  induction xs with
  | nil => simp [backwardPass]
  | cons x xs ih =>
      cases xs with
      | nil => simp [backwardPass]
      | cons y ys =>
          have hne : backwardPass gap maxTop (y :: ys) ≠ [] :=
            backwardPass_ne_nil gap maxTop (by simp)
          rw [backwardPass]
          rcases List.exists_cons_of_ne_nil hne with ⟨b, bs, hb⟩
          rw [hb] at ih ⊢
          refine List.Chain'.cons ?_ ih
          simp only [List.headI]
          have : min x (b - gap) ≤ b - gap := min_le_right _ _
          linarith

/-- The last element of the backward pass output of a nonempty list is
`maxTop`. -/
theorem backwardPass_getLastD (gap maxTop : ℚ) :
    ∀ (xs : List ℚ), xs ≠ [] → ∀ d, (backwardPass gap maxTop xs).getLastD d = maxTop := by
  intro xs
  induction xs with
  | nil => intro h; exact absurd rfl h
  | cons x xs ih =>
      intro _ d
      cases xs with
      | nil => rfl
      | cons y ys =>
          have hne : backwardPass gap maxTop (y :: ys) ≠ [] :=
            backwardPass_ne_nil gap maxTop (by simp)
          simp only [backwardPass]
          rcases List.exists_cons_of_ne_nil hne with ⟨b, bs, hb⟩
          rw [hb, List.getLastD_cons, List.getLastD_cons]
          have h2 := ih (by simp) b
          rw [hb, List.getLastD_cons] at h2
          exact h2

/-! ### Order lemmas derived from the chain structure -/

theorem getLastD_irrel {l : List ℚ} (h : l ≠ []) (d₁ d₂ : ℚ) :
    l.getLastD d₁ = l.getLastD d₂ := by
  cases l with
  | nil => exact absurd rfl h
  | cons a as =>
      rw [List.getLastD_cons]
      rw [show (a :: as).getLastD d₂ = as.getLastD a from List.getLastD_cons ..]

theorem forwardFrom_cons (gap prev x : ℚ) (xs : List ℚ) :
    forwardFrom gap prev (x :: xs)
      = max x (prev + gap) :: forwardFrom gap (max x (prev + gap)) xs := rfl

theorem forwardFrom_ne_nil (gap prev : ℚ) {xs : List ℚ} (h : xs ≠ []) :
    forwardFrom gap prev xs ≠ [] := by
  intro hcon
  have hl := forwardFrom_length gap prev xs
  rw [hcon] at hl
  exact h (List.length_eq_zero.mp hl.symm)

/-- Telescoping a gap-chain from its start value to its last element. -/
theorem chain_gap_length_le_getLastD {gap : ℚ} :
    ∀ (l : List ℚ) (a : ℚ), List.Chain (fun u v => u + gap ≤ v) a l → l ≠ [] →
      a + (l.length : ℚ) * gap ≤ l.getLastD 0 := by
  intro l
  induction l with
  | nil => intro a _ h; exact absurd rfl h
  | cons x xs ih =>
      intro a hc _
      rcases List.chain_cons.mp hc with ⟨hax, hxs⟩
      cases xs with
      | nil =>
          simp only [List.getLastD_cons, List.getLastD_nil, List.length_cons,
            List.length_nil]
          push_cast
          linarith
      | cons y ys =>
          have h2 := ih x hxs (by simp)
          rw [List.getLastD_cons, getLastD_irrel (by simp : (y :: ys : List ℚ) ≠ []) x 0]
          simp only [List.length_cons] at h2 ⊢
          push_cast at h2 ⊢
          linarith

/-- Every element of a gap-chain (gap ≥ 0) dominates the start value. -/
theorem chain_gap_start_le_mem {gap : ℚ} (hg : 0 ≤ gap) :
    ∀ (l : List ℚ) (a : ℚ), List.Chain (fun u v => u + gap ≤ v) a l →
      ∀ x ∈ l, a ≤ x := by
  intro l
  induction l with
  | nil => intro a _ x hx; exact absurd hx (List.not_mem_nil x)
  | cons b bs ih =>
      intro a hc x hx
      rcases List.chain_cons.mp hc with ⟨hab, hbs⟩
      have hab' : a ≤ b := by linarith
      rcases List.mem_cons.mp hx with rfl | hx'
      · exact hab'
      · exact hab'.trans (ih b hbs x hx')

/-- Every element of a gap-chain (gap ≥ 0) is at most the last element. -/
theorem chain'_gap_mem_le_getLastD {gap : ℚ} (hg : 0 ≤ gap) :
    ∀ (l : List ℚ), List.Chain' (fun u v => u + gap ≤ v) l →
      ∀ x ∈ l, x ≤ l.getLastD 0 := by
  intro l
  induction l with
  | nil => intro _ x hx; exact absurd hx (List.not_mem_nil x)
  | cons a l ih =>
      intro hc x hx
      cases l with
      | nil =>
          rcases List.mem_cons.mp hx with rfl | hx'
          · simp [List.getLastD_cons]
          · exact absurd hx' (List.not_mem_nil x)
      | cons b bs =>
          have hc' : List.Chain (fun u v => u + gap ≤ v) a (b :: bs) := hc
          rcases List.chain_cons.mp hc' with ⟨hab, hbs⟩
          have hlast : (a :: b :: bs).getLastD 0 = (b :: bs).getLastD 0 := by
            rw [List.getLastD_cons, getLastD_irrel (by simp : (b :: bs : List ℚ) ≠ []) a 0]
          rw [hlast]
          have ihb : ∀ y ∈ (b :: bs), y ≤ (b :: bs).getLastD 0 := ih hbs
          rcases List.mem_cons.mp hx with rfl | hx'
          · have hb : b ≤ (b :: bs).getLastD 0 := ihb b (by simp)
            linarith
          · exact ihb x hx'

/-- Every element of a gap-chain (gap ≥ 0) dominates the head. -/
theorem chain'_gap_headI_le_mem {gap : ℚ} (hg : 0 ≤ gap) :
    ∀ (l : List ℚ), List.Chain' (fun u v => u + gap ≤ v) l →
      ∀ x ∈ l, l.headI ≤ x := by
  intro l hc x hx
  cases l with
  | nil => exact absurd hx (List.not_mem_nil x)
  | cons a l =>
      have hc' : List.Chain (fun u v => u + gap ≤ v) a l := hc
      rcases List.mem_cons.mp hx with rfl | hx'
      · simp
      · simpa using chain_gap_start_le_mem hg l a hc' x hx'

/-- When the forward pass runs on a list that is already a gap-chain, its last
output is the max of the input's last element and the telescoped start. -/
theorem forwardFrom_getLastD_of_chain {gap : ℚ} :
    ∀ (xs : List ℚ), List.Chain' (fun u v => u + gap ≤ v) xs → xs ≠ [] →
      ∀ prev, (forwardFrom gap prev xs).getLastD 0
        = max (xs.getLastD 0) (prev + (xs.length : ℚ) * gap) := by
  intro xs
  induction xs with
  | nil => intro _ h; exact absurd rfl h
  | cons x xs ih =>
      intro hc _ prev
      cases xs with
      | nil =>
          simp only [forwardFrom, List.getLastD_cons, List.getLastD_nil,
            List.length_cons, List.length_nil]
          norm_num
      | cons y ys =>
          have hc' : List.Chain (fun u v => u + gap ≤ v) x (y :: ys) := hc
          rcases List.chain_cons.mp hc' with ⟨hxy, hys⟩
          have hchain : List.Chain' (fun u v => u + gap ≤ v) (y :: ys) := hys
          have hfne := forwardFrom_ne_nil gap (max x (prev + gap)) (by simp : (y :: ys : List ℚ) ≠ [])
          have htel : x + ((y :: ys).length : ℚ) * gap ≤ (y :: ys).getLastD 0 :=
            chain_gap_length_le_getLastD (y :: ys) x hc' (by simp)
          have hdist : max x (prev + gap) + ((y :: ys).length : ℚ) * gap
              = max (x + ((y :: ys).length : ℚ) * gap)
                    (prev + gap + ((y :: ys).length : ℚ) * gap) := by
            rw [← max_add_add_right]
          have hrhs : (x :: y :: ys).getLastD 0 = (y :: ys).getLastD 0 := by
            rw [List.getLastD_cons]
            exact getLastD_irrel (by simp) x 0
          have hlen : ((x :: y :: ys).length : ℚ) = ((y :: ys).length : ℚ) + 1 := by
            simp only [List.length_cons]
            push_cast
            ring
          rw [forwardFrom_cons, List.getLastD_cons, getLastD_irrel hfne _ 0,
            ih hchain (by simp) (max x (prev + gap)), hrhs, hlen, hdist,
            ← max_assoc, max_eq_left htel]
          ring_nf

/-! ### Feasibility of the combined pass -/

/-- All outputs of the intermediate passes stay at adjacent distance ≥ `gap`,
for every input (the final clamp is analysed separately). -/
theorem applyMinGapCore_chain' (positions : List ℚ) (minTop maxTop gap : ℚ) :
    List.Chain' (fun u v => u + gap ≤ v)
      (applyMinGapCore positions minTop maxTop gap) := by
  cases positions with
  | nil => simp [applyMinGapCore]
  | cons p ps =>
      simp only [applyMinGapCore]
      split
      · split
        · exact forwardFrom_chain gap minTop _
        · exact backwardPass_chain gap maxTop _
      · exact forwardFrom_chain gap _ ps

/-- Bounds analysis of the backward branch of `applyMinGap` (the branch taken
when the forward pass overflows `maxTop`): under feasibility of the gap, every
value it produces lies in `[minTop, maxTop]`. -/
theorem backwardBranch_bounds (l : List ℚ) (minTop maxTop gap : ℚ)
    (hg : 0 ≤ gap) (hb : minTop ≤ maxTop)
    (hf : minTop + ((l.length : ℚ) - 1) * gap ≤ maxTop) (hne : l ≠ []) :
    ∀ x ∈ (if (backwardPass gap maxTop l).headI < minTop
           then minTop :: forwardFrom gap minTop (backwardPass gap maxTop l).tail
           else backwardPass gap maxTop l),
      minTop ≤ x ∧ x ≤ maxTop := by
  have hbwne : backwardPass gap maxTop l ≠ [] := backwardPass_ne_nil gap maxTop hne
  have hbwchain := backwardPass_chain gap maxTop l
  have hbwlast : (backwardPass gap maxTop l).getLastD 0 = maxTop :=
    backwardPass_getLastD gap maxTop l hne 0
  split
  next hhead =>
    intro x hx
    rcases List.mem_cons.mp hx with rfl | hxF
    · exact ⟨le_refl _, hb⟩
    · constructor
      · exact chain_gap_start_le_mem hg _ minTop
          (forwardFrom_chain gap minTop (backwardPass gap maxTop l).tail) x hxF
      · -- upper bound via the last element of the repaired forward pass
        rcases List.exists_cons_of_ne_nil hbwne with ⟨b0, brest, hb0⟩
        cases hbrest : brest with
        | nil =>
            rw [hb0, hbrest] at hxF
            simp [forwardFrom] at hxF
        | cons t ts =>
            have htailchain : List.Chain' (fun u v => u + gap ≤ v) (t :: ts) := by
              have h1 := List.Chain'.tail hbwchain
              rw [hb0, hbrest] at h1
              exact h1
            have hlast2 : (t :: ts).getLastD 0 = maxTop := by
              have h1 := hbwlast
              rw [hb0, hbrest, List.getLastD_cons,
                getLastD_irrel (by simp : (t :: ts : List ℚ) ≠ []) b0 0] at h1
              exact h1
            have hlen : ((t :: ts).length : ℚ) = (l.length : ℚ) - 1 := by
              have h1 : (backwardPass gap maxTop l).length = l.length :=
                backwardPass_length gap maxTop l
              rw [hb0, hbrest, List.length_cons] at h1
              have : ((t :: ts).length + 1 : ℕ) = l.length := h1
              have h2 : (((t :: ts).length : ℚ) + 1) = (l.length : ℚ) := by
                exact_mod_cast congrArg (fun n : ℕ => (n : ℚ)) this
              linarith
            have htail : (backwardPass gap maxTop l).tail = t :: ts := by
              rw [hb0, hbrest, List.tail_cons]
            rw [htail] at hxF
            have hFne : forwardFrom gap minTop (t :: ts) ≠ [] :=
              forwardFrom_ne_nil gap minTop (by simp)
            have hFlast : (forwardFrom gap minTop (t :: ts)).getLastD 0
                = max ((t :: ts).getLastD 0) (minTop + ((t :: ts).length : ℚ) * gap) :=
              forwardFrom_getLastD_of_chain (t :: ts) htailchain (by simp) minTop
            have hFub : (forwardFrom gap minTop (t :: ts)).getLastD 0 ≤ maxTop := by
              rw [hFlast, hlast2, hlen]
              exact max_le (le_refl _) (by linarith)
            have hchain2 : List.Chain' (fun u v => u + gap ≤ v)
                (minTop :: forwardFrom gap minTop (t :: ts)) :=
              forwardFrom_chain gap minTop (t :: ts)
            have hx2 : x ∈ minTop :: forwardFrom gap minTop (t :: ts) :=
              List.mem_cons_of_mem _ hxF
            have hub := chain'_gap_mem_le_getLastD hg _ hchain2 x hx2
            have heq : (minTop :: forwardFrom gap minTop (t :: ts)).getLastD 0
                = (forwardFrom gap minTop (t :: ts)).getLastD 0 := by
              rw [List.getLastD_cons]
              exact getLastD_irrel hFne minTop 0
            rw [heq] at hub
            exact hub.trans hFub
  next hhead =>
    push_neg at hhead
    intro x hx
    constructor
    · exact hhead.trans (chain'_gap_headI_le_mem hg _ hbwchain x hx)
    · have := chain'_gap_mem_le_getLastD hg _ hbwchain x hx
      rw [hbwlast] at this
      exact this

/-- Under feasibility (`gap·(N-1) ≤ maxTop-minTop`), every intermediate value
of `applyMinGap` already lies in `[minTop, maxTop]`. -/
theorem applyMinGapCore_bounds (positions : List ℚ) (minTop maxTop gap : ℚ)
    (hg : 0 ≤ gap) (hb : minTop ≤ maxTop)
    (hf : gap * ((positions.length : ℚ) - 1) ≤ maxTop - minTop) :
    ∀ x ∈ applyMinGapCore positions minTop maxTop gap, minTop ≤ x ∧ x ≤ maxTop := by
  cases positions with
  | nil => intro x hx; simp [applyMinGapCore] at hx
  | cons p ps =>
      have hhlo : minTop ≤ max minTop (min p maxTop) := le_max_left _ _
      have hhhi : max minTop (min p maxTop) ≤ maxTop := max_le hb (min_le_right _ _)
      have hchain1 : List.Chain' (fun u v => u + gap ≤ v)
          (max minTop (min p maxTop) :: forwardFrom gap (max minTop (min p maxTop)) ps) :=
        forwardFrom_chain gap (max minTop (min p maxTop)) ps
      simp only [applyMinGapCore]
      split
      next hlast =>
        have hflen : ((p :: ps).length : ℚ) - 1 = ((max minTop (min p maxTop)
            :: forwardFrom gap (max minTop (min p maxTop)) ps).length : ℚ) - 1 := by
          simp [forwardFrom_length]
        refine backwardBranch_bounds _ minTop maxTop gap hg hb ?_ (by simp)
        rw [← hflen]
        linarith
      next hlast =>
        push_neg at hlast
        intro x hx
        constructor
        · exact hhlo.trans (by
            simpa using chain'_gap_headI_le_mem hg _ hchain1 x hx)
        · exact (chain'_gap_mem_le_getLastD hg _ hchain1 x hx).trans hlast

/-- The final clamp is the identity on values already in `[minTop, maxTop]`. -/
theorem map_finalClamp_id (minTop maxTop : ℚ) :
    ∀ (l : List ℚ), (∀ x ∈ l, minTop ≤ x ∧ x ≤ maxTop) →
      l.map (finalClamp minTop maxTop) = l := by
  intro l
  induction l with
  | nil => intro _; rfl
  | cons a l ih =>
      intro hmem
      have ha := hmem a (by simp)
      have : finalClamp minTop maxTop a = a := by
        unfold finalClamp
        rw [max_eq_left ha.1, min_eq_left ha.2]
      simp only [List.map_cons, this, ih (fun x hx => hmem x (List.mem_cons_of_mem _ hx))]

/-- Every output of `applyMinGap` lies in `[minTop, maxTop]` whenever
`minTop ≤ maxTop`, for every input (feasible or not). -/
theorem applyMinGap_mem_bounds (positions : List ℚ) (minTop maxTop gap : ℚ)
    (hb : minTop ≤ maxTop) :
    ∀ x ∈ applyMinGap positions minTop maxTop gap, minTop ≤ x ∧ x ≤ maxTop := by
  intro x hx
  rcases List.mem_map.mp hx with ⟨y, _, rfl⟩
  unfold finalClamp
  constructor
  · exact le_min (le_max_right _ _) hb
  · exact min_le_right _ _

/-! ### Claim theorems for the min-gap engine -/

/-- Claim C1 (counterexample): at usable height `0` (a zero-height bar, so
`minTop = maxTop`) with `N = 3` markers and raw gap `12`, the infeasibility
condition `12·(3-1) > 0` holds, yet `getEffectiveMinGap` takes its
`usableHeight <= 0` branch and returns the raw gap `12` uncapped — not the
claimed maximal feasible gap `usableHeight/(N-1) = 0`. -/
theorem getEffectiveMinGap_cap_counterexample :
    getEffectiveMinGap 12 0 3 = 12
    ∧ getEffectiveMinGap 12 0 3 ≠ 0 / (((3:ℕ) : ℚ) - 1) := by
  constructor
  · unfold getEffectiveMinGap
    norm_num
  · unfold getEffectiveMinGap
    norm_num

/-- Claim C1 (amended): for every list of desired positions with `gap ≥ 0` and
`minTop ≤ maxTop`, every output of `applyMinGap` lies in `[minTop, maxTop]`
(feasible or not); if `gap·(N-1) ≤ maxTop-minTop` then moreover every adjacent
output pair differs by at least `gap`; and when `raw·(count-1)` exceeds a
*positive* usable height, `getEffectiveMinGap` caps the gap at
`usableHeight/(count-1)` — whereas for a non-positive usable height
(zero-height bar) it takes its early branch and returns the raw gap uncapped,
`max(0, raw)`, so the cap of the original claim does not apply there. -/
theorem applyMinGap_min_gap_spec (positions : List ℚ) (minTop maxTop gap : ℚ)
    (hg : 0 ≤ gap) (hb : minTop ≤ maxTop) :
    (∀ x ∈ applyMinGap positions minTop maxTop gap, minTop ≤ x ∧ x ≤ maxTop)
    ∧ (gap * ((positions.length : ℚ) - 1) ≤ maxTop - minTop →
        List.Chain' (fun u v => u + gap ≤ v) (applyMinGap positions minTop maxTop gap))
    ∧ (∀ raw usable : ℚ, ∀ count : ℕ, 2 ≤ count → 0 < usable → 0 ≤ raw →
        usable < raw * ((count : ℚ) - 1) →
        getEffectiveMinGap raw usable count = usable / ((count : ℚ) - 1))
    ∧ (∀ raw usable : ℚ, ∀ count : ℕ, 2 ≤ count → usable ≤ 0 →
        getEffectiveMinGap raw usable count = max 0 raw) := by
  refine ⟨applyMinGap_mem_bounds _ _ _ _ hb, ?_, ?_, ?_⟩
  · intro hf
    have hbounds := applyMinGapCore_bounds positions minTop maxTop gap hg hb hf
    have heq : applyMinGap positions minTop maxTop gap
        = applyMinGapCore positions minTop maxTop gap :=
      map_finalClamp_id minTop maxTop _ hbounds
    rw [heq]
    exact applyMinGapCore_chain' positions minTop maxTop gap
  · intro raw usable count h2 hu hr hlt
    have hc1 : (1:ℚ) ≤ (count:ℚ) - 1 := by
      have h2' : (2:ℚ) ≤ (count:ℚ) := by exact_mod_cast h2
      linarith
    have hpos : (0:ℚ) < (count:ℚ) - 1 := by linarith
    have hdiv : usable / ((count:ℚ) - 1) < raw := by
      rw [div_lt_iff₀ hpos]
      exact hlt
    have hdnn : (0:ℚ) ≤ usable / ((count:ℚ) - 1) := le_of_lt (div_pos hu hpos)
    unfold getEffectiveMinGap
    rw [if_neg (by omega), if_neg (not_le.mpr hu), max_eq_right hc1,
      min_eq_right (le_of_lt hdiv), max_eq_right hdnn]
  · intro raw usable count h2 hu
    unfold getEffectiveMinGap
    rw [if_neg (by omega), if_pos hu]

theorem applyMinGap_min_gap_spec_witness :
    getEffectiveMinGap 12 10 3 = 10 / (((3:ℕ) : ℚ) - 1)
    ∧ getEffectiveMinGap 12 0 3 = max 0 12 :=
  ⟨(applyMinGap_min_gap_spec [(10:ℚ), 12, 100] 12 188 12 (by norm_num)
      (by norm_num)).2.2.1 12 10 3 (by norm_num) (by norm_num) (by norm_num)
      (by push_cast; norm_num),
   (applyMinGap_min_gap_spec [(10:ℚ), 12, 100] 12 188 12 (by norm_num)
      (by norm_num)).2.2.2 12 0 3 (by norm_num) (by norm_num)⟩

/-- Claim C10: for every input list (sorted or not), every `gap ≥ 0` and every
`minTop ≤ maxTop` — including the infeasible case — `applyMinGap` returns a
list of the same length, non-decreasing in index order, with every element in
`[minTop, maxTop]`. -/
theorem applyMinGap_invariant_spec (positions : List ℚ) (minTop maxTop gap : ℚ)
    (hg : 0 ≤ gap) (hb : minTop ≤ maxTop) :
    (applyMinGap positions minTop maxTop gap).length = positions.length
    ∧ List.Chain' (fun u v => u ≤ v) (applyMinGap positions minTop maxTop gap)
    ∧ ∀ x ∈ applyMinGap positions minTop maxTop gap, minTop ≤ x ∧ x ≤ maxTop := by
  refine ⟨applyMinGap_length _ _ _ _, ?_, applyMinGap_mem_bounds _ _ _ _ hb⟩
  have hchain := applyMinGapCore_chain' positions minTop maxTop gap
  unfold applyMinGap
  rw [List.chain'_map]
  refine hchain.imp ?_
  intro a b hab
  unfold finalClamp
  have hab' : a ≤ b := by linarith
  exact min_le_min (max_le_max hab' (le_refl _)) (le_refl _)

theorem applyMinGap_invariant_spec_witness :
    (applyMinGap [(50:ℚ), 10, 30] 0 5 10).length = 3
    ∧ List.Chain' (fun u v => u ≤ v) (applyMinGap [(50:ℚ), 10, 30] 0 5 10) :=
  ⟨(applyMinGap_invariant_spec [(50:ℚ), 10, 30] 0 5 10 (by norm_num) (by norm_num)).1,
   (applyMinGap_invariant_spec [(50:ℚ), 10, 30] 0 5 10 (by norm_num) (by norm_num)).2.1⟩

/-! ## GeometryEngine: even distribution (`updateTimelineGeometry`, content.js 1217–1268) -/

/-- `const usable = Math.max(0, barHeight - 2 * pad)` (content.js 1223). -/
def usableHeight (barHeight pad : ℚ) : ℚ := max 0 (barHeight - 2 * pad)

/-- The denominator of the normalized-position ratio
`n = (clampedTop - pad) / usable` in `updateTimelineGeometry`
(content.js 1240): it is `usable` itself, with no flooring applied. -/
def geometryNDenominator (barHeight pad : ℚ) : ℚ := usableHeight barHeight pad

/-- The pixel positions `yPositions` computed by `updateTimelineGeometry`
(content.js 1228–1243): `pad + usable/2` for a single marker; for `N > 1`,
`pad + step*i` with `step = usable / Math.max(1, N-1)`, clamped to
`[pad, pad + usable]`. -/
def updateTimelineGeometryPositions (N : ℕ) (barHeight pad : ℚ) : List ℚ :=
  let usable := usableHeight barHeight pad
  if N = 1 then [pad + usable / 2]
  else if 1 < N then
    (List.range N).map (fun (i : ℕ) =>
      let step := usable / max 1 ((N : ℚ) - 1)
      let top := pad + step * (i : ℚ)
      max pad (min (pad + usable) top))
  else []

/-- The normalized values `n_i` computed by `updateTimelineGeometry`:
`0.5` for a single marker; otherwise `(clampedTop - pad) / usable` clamped to
`[0, 1]`. -/
def updateTimelineGeometryN (N : ℕ) (barHeight pad : ℚ) : List ℚ :=
  let usable := usableHeight barHeight pad
  if N = 1 then [1/2]
  else if 1 < N then
    (List.range N).map (fun (i : ℕ) =>
      let step := usable / max 1 ((N : ℚ) - 1)
      let top := pad + step * (i : ℚ)
      let clampedTop := max pad (min (pad + usable) top)
      max 0 (min 1 ((clampedTop - pad) / geometryNDenominator barHeight pad)))
  else []

/-- With `N ≥ 2` and positive usable height, the clamp in
`updateTimelineGeometry` is the identity and each position is exactly
`pad + step·i`. -/
theorem updateTimelineGeometryPositions_elem (N : ℕ) (H P : ℚ)
    (hN : 2 ≤ N) (hHP : 2 * P < H) (i : ℕ) (hi : i < N) :
    max P (min (P + usableHeight H P)
        (P + usableHeight H P / max 1 ((N : ℚ) - 1) * (i : ℚ)))
      = P + (H - 2 * P) / ((N : ℚ) - 1) * (i : ℚ) := by
  have hu : usableHeight H P = H - 2 * P := by
    unfold usableHeight
    rw [max_eq_right (by linarith)]
  have hupos : (0:ℚ) < H - 2 * P := by linarith
  have hc1 : (1:ℚ) ≤ (N:ℚ) - 1 := by
    have : (2:ℚ) ≤ (N:ℚ) := by exact_mod_cast hN
    linarith
  have hcpos : (0:ℚ) < (N:ℚ) - 1 := by linarith
  have hmax : max 1 ((N:ℚ) - 1) = (N:ℚ) - 1 := max_eq_right hc1
  have hstep : (0:ℚ) ≤ (H - 2*P) / ((N:ℚ) - 1) := le_of_lt (div_pos hupos hcpos)
  have hiN : (i:ℚ) ≤ (N:ℚ) - 1 := by
    have : (i:ℚ) + 1 ≤ (N:ℚ) := by exact_mod_cast hi
    linarith
  have hsi : (H - 2*P) / ((N:ℚ) - 1) * (i:ℚ) ≤ H - 2*P := by
    rw [div_mul_eq_mul_div, div_le_iff₀ hcpos]
    have hinn : (0:ℚ) ≤ (i:ℚ) := Nat.cast_nonneg i
    nlinarith
  have hnn : (0:ℚ) ≤ (H - 2*P) / ((N:ℚ) - 1) * (i:ℚ) :=
    mul_nonneg hstep (Nat.cast_nonneg i)
  rw [hu, hmax, min_eq_right (by linarith), max_eq_right (by linarith)]

/-- Claim C2 (amended): for `N ≥ 2` and `barHeight > 2·padding`, the positions
computed by `updateTimelineGeometry` are strictly increasing in index order
and lie within `[P, H-P]`.  (The original claim, quantifying over all `H`,
`P`, fails when `barHeight ≤ 2·padding`: all positions collapse to `P`.) -/
theorem updateTimelineGeometry_monotone_amended (N : ℕ) (H P : ℚ)
    (hN : 2 ≤ N) (hHP : 2 * P < H) :
    List.Pairwise (fun u v => u < v) (updateTimelineGeometryPositions N H P)
    ∧ ∀ x ∈ updateTimelineGeometryPositions N H P, P ≤ x ∧ x ≤ H - P := by
  have hne1 : N ≠ 1 := by omega
  have h1N : 1 < N := by omega
  have hupos : (0:ℚ) < H - 2 * P := by linarith
  have hcpos : (0:ℚ) < (N:ℚ) - 1 := by
    have : (2:ℚ) ≤ (N:ℚ) := by exact_mod_cast hN
    linarith
  have hsteppos : (0:ℚ) < (H - 2*P) / ((N:ℚ) - 1) := div_pos hupos hcpos
  unfold updateTimelineGeometryPositions
  rw [if_neg hne1, if_pos h1N]
  constructor
  · simp only [List.pairwise_map]
    refine (List.pairwise_lt_range N).imp_of_mem ?_
    intro i j hi hj hij
    rw [updateTimelineGeometryPositions_elem N H P hN hHP i (List.mem_range.mp hi),
      updateTimelineGeometryPositions_elem N H P hN hHP j (List.mem_range.mp hj)]
    have : (i:ℚ) < (j:ℚ) := by exact_mod_cast hij
    nlinarith
  · intro x hx
    rcases List.mem_map.mp hx with ⟨i, hi, rfl⟩
    rw [updateTimelineGeometryPositions_elem N H P hN hHP i (List.mem_range.mp hi)]
    have hiN : (i:ℚ) ≤ (N:ℚ) - 1 := by
      have : (i:ℚ) + 1 ≤ (N:ℚ) := by exact_mod_cast List.mem_range.mp hi
      linarith
    have hinn : (0:ℚ) ≤ (i:ℚ) := Nat.cast_nonneg i
    have hsi : (H - 2*P) / ((N:ℚ) - 1) * (i:ℚ) ≤ H - 2*P := by
      rw [div_mul_eq_mul_div, div_le_iff₀ hcpos]
      nlinarith
    constructor
    · nlinarith
    · linarith

theorem updateTimelineGeometry_monotone_amended_witness :
    List.Pairwise (fun u v => u < v) (updateTimelineGeometryPositions 3 200 12) :=
  (updateTimelineGeometry_monotone_amended 3 200 12 (by norm_num) (by norm_num)).1

/-- At `N = 2`, `barHeight = 0`, `padding = 12` the computed positions are
`[12, 12]`. -/
theorem updateTimelineGeometryPositions_degenerate :
    updateTimelineGeometryPositions 2 0 12 = [12, 12] := by
  unfold updateTimelineGeometryPositions usableHeight
  norm_num [List.range_succ]

/-- Claim C2 (counterexample): at `N = 2`, `barHeight = 0`, `padding = 12` the
computed positions `[12, 12]` are not strictly increasing (and `[P, H-P]` is
the empty interval), refuting the claim as stated for all `H`, `P`. -/
theorem updateTimelineGeometry_monotone_counterexample :
    ¬ (List.Pairwise (fun u v => u < v) (updateTimelineGeometryPositions 2 0 12)
       ∧ ∀ x ∈ updateTimelineGeometryPositions 2 0 12, 12 ≤ x ∧ x ≤ 0 - 12) := by
  rw [updateTimelineGeometryPositions_degenerate]
  rintro ⟨hpw, -⟩
  rcases List.pairwise_cons.mp hpw with ⟨h12, -⟩
  exact absurd (h12 12 (by simp)) (lt_irrefl 12)

/-- Claim C3 (counterexample): at `barHeight = 200`, `padding = 12` the single
marker's computed pixel position is `12 + (200 - 24)/2 = 100`, not `106` as the
claim states. -/
theorem updateTimelineGeometry_single_counterexample :
    updateTimelineGeometryPositions 1 200 12 = [100]
    ∧ updateTimelineGeometryPositions 1 200 12 ≠ [106] := by
  constructor
  · unfold updateTimelineGeometryPositions usableHeight
    norm_num
  · unfold updateTimelineGeometryPositions usableHeight
    norm_num

/-- Claim C3 (amended): a single marker is assigned normalized position
`n = 0.5` for every bar height and padding; for `barHeight = 200`,
`padding = 12` its pixel position is `100` (the claim's `106` is wrong: the
code computes `pad + max(0, barHeight - 2·pad)/2`). -/
theorem updateTimelineGeometry_single_amended (H P : ℚ) :
    updateTimelineGeometryN 1 H P = [1/2]
    ∧ updateTimelineGeometryPositions 1 200 12 = [100] := by
  constructor
  · unfold updateTimelineGeometryN
    norm_num
  · unfold updateTimelineGeometryPositions usableHeight
    norm_num

/-! ## Ratio denominators (`syncTimelineTrackToMain` content.js 1293–1314,
`reapplyMinGapAfterResize` content.js 1106–1124) -/

/-- The denominator of the scroll ratio in `syncTimelineTrackToMain`
(content.js 1306): `Math.max(1, contentSpanPx || 1)` (JS `||` replaces the
falsy value `0` by `1`). -/
def syncSpanDenominator (contentSpanPx : ℚ) : ℚ :=
  max 1 (if contentSpanPx = 0 then 1 else contentSpanPx)

/-- The scroll ratio `r` computed by `syncTimelineTrackToMain`
(content.js 1304–1307). -/
def syncTrackRatio (scrollTop clientHeight firstOffset contentSpanPx : ℚ) : ℚ :=
  max 0 (min 1
    ((scrollTop + clientHeight * (45/100) - firstOffset) / syncSpanDenominator contentSpanPx))

/-- The denominator of the normalized position in `reapplyMinGapAfterResize`
(content.js 1121): `Math.max(1, maxTop - minTop)`. -/
def reapplyNDenominator (minTop maxTop : ℚ) : ℚ := max 1 (maxTop - minTop)

/-- The normalized position written back by `reapplyMinGapAfterResize`
(content.js 1121–1122). -/
def reapplyN (top minTop maxTop : ℚ) : ℚ :=
  max 0 (min 1 ((top - minTop) / reapplyNDenominator minTop maxTop))

/-- Claim C8 (counterexample): the normalized-position computation of
`updateTimelineGeometry` divides by `usable = max(0, barHeight - 2·pad)`
without flooring it to 1, and this denominator is `0` for a zero-height
container (`barHeight = 0`, `padding = 12`), refuting "every denominator is
floored to 1 before dividing". -/
theorem ratio_denominator_zero_counterexample :
    geometryNDenominator 0 12 = 0 ∧ ¬ (1 ≤ geometryNDenominator 0 12) := by
  constructor
  · unfold geometryNDenominator usableHeight
    norm_num
  · unfold geometryNDenominator usableHeight
    norm_num

/-- Claim C8 (amended): the ratio denominators of `syncTimelineTrackToMain`
and `reapplyMinGapAfterResize` are floored to 1 and hence never zero, but the
normalized-position denominator of `updateTimelineGeometry` is not floored: it
is positive exactly when `barHeight > 2·padding` and zero whenever
`barHeight ≤ 2·padding`. -/
theorem ratio_denominators_amended (contentSpanPx minTop maxTop barHeight pad : ℚ) :
    1 ≤ syncSpanDenominator contentSpanPx
    ∧ 1 ≤ reapplyNDenominator minTop maxTop
    ∧ (2 * pad < barHeight → 0 < geometryNDenominator barHeight pad)
    ∧ (barHeight ≤ 2 * pad → geometryNDenominator barHeight pad = 0) := by
  refine ⟨le_max_left _ _, le_max_left _ _, ?_, ?_⟩
  · intro h
    unfold geometryNDenominator usableHeight
    rw [max_eq_right (by linarith)]
    linarith
  · intro h
    unfold geometryNDenominator usableHeight
    rw [max_eq_left (by linarith)]

theorem ratio_denominators_amended_witness :
    1 ≤ syncSpanDenominator 0 ∧ 0 < geometryNDenominator 200 12
    ∧ geometryNDenominator 0 12 = 0 :=
  ⟨(ratio_denominators_amended 0 0 0 200 12).1,
   (ratio_denominators_amended 0 0 0 200 12).2.2.1 (by norm_num),
   (ratio_denominators_amended 0 0 0 0 12).2.2.2 (by norm_num)⟩

/-! ## ScrollSyncController: active-marker decision
(`computeActiveByScroll`, content.js 1548–1563) -/

/-- A generic form of `getLastD_irrel` reused for other element types. -/
theorem getLastD_irrel' {α : Type} {l : List α} (h : l ≠ []) (d₁ d₂ : α) :
    l.getLastD d₁ = l.getLastD d₂ := by
  cases l with
  | nil => exact absurd rfl h
  | cons a as =>
      rw [List.getLastD_cons]
      rw [show (a :: as).getLastD d₂ = as.getLastD a from List.getLastD_cons ..]

theorem getLastD_mem {α : Type} {l : List α} (h : l ≠ []) (d : α) :
    l.getLastD d ∈ l := by
  induction l generalizing d with
  | nil => exact absurd rfl h
  | cons a as ih =>
      cases as with
      | nil => simp [List.getLastD_cons]
      | cons b bs =>
          rw [List.getLastD_cons]
          exact List.mem_cons_of_mem a (ih (by simp) a)

/-- The scan loop of `computeActiveByScroll`: markers are visited in order;
a marker whose document offset is `≤ ref` becomes the candidate, and the loop
breaks at the first marker with offset `> ref`
(JS: `if (top <= ref) { activeId = m.id; } else { break; }`). -/
def activeScan (ref : ℚ) : String → List (String × ℚ) → String
  | acc, [] => acc
  | acc, m :: rest => if m.2 ≤ ref then activeScan ref m.1 rest else acc

/-- The candidate id computed by `computeActiveByScroll` (content.js
1548–1563): `none` when there are no markers (the function returns early),
otherwise the scan started from the first marker's id. -/
def computeActiveCandidate (markers : List (String × ℚ)) (ref : ℚ) : Option String :=
  match markers with
  | [] => none
  | m0 :: _ => some (activeScan ref m0.1 markers)

/-- Elements after the head of an offset-sorted chain dominate the head's
offset. -/
theorem chain_snd_le_mem :
    ∀ (l : List (String × ℚ)) (a : String × ℚ),
      List.Chain (fun x y => x.2 ≤ y.2) a l → ∀ m ∈ l, a.2 ≤ m.2 := by
  intro l
  induction l with
  | nil => intro a _ m hm; exact absurd hm (List.not_mem_nil m)
  | cons b bs ih =>
      intro a hc m hm
      rcases List.chain_cons.mp hc with ⟨hab, hbs⟩
      rcases List.mem_cons.mp hm with rfl | hm'
      · exact hab
      · exact hab.trans (ih b hbs m hm')

/-- On an offset-sorted marker list the scan returns the id of the last
qualifying marker, or the accumulator if none qualifies. -/
theorem activeScan_eq (ref : ℚ) :
    ∀ (l : List (String × ℚ)) (a : String),
      List.Chain' (fun x y => x.2 ≤ y.2) l →
      activeScan ref a l
        = ((l.filter (fun m => decide (m.2 ≤ ref))).map Prod.fst).getLastD a := by
  intro l
  induction l with
  | nil => intro a _; rfl
  | cons m rest ih =>
      intro a hc
      have hc' : List.Chain (fun x y => x.2 ≤ y.2) m rest := hc
      by_cases hm : m.2 ≤ ref
      · have hrest : List.Chain' (fun x y => x.2 ≤ y.2) rest := hc.tail
        rw [show activeScan ref a (m :: rest) = activeScan ref m.1 rest by
              simp [activeScan, hm],
          ih m.1 hrest]
        rw [show (m :: rest).filter (fun x => decide (x.2 ≤ ref))
              = m :: rest.filter (fun x => decide (x.2 ≤ ref)) by
            simp [List.filter_cons, hm]]
        rw [List.map_cons, List.getLastD_cons]
      · have hnone : rest.filter (fun x => decide (x.2 ≤ ref)) = [] := by
          rw [List.filter_eq_nil_iff]
          intro x hx
          have := chain_snd_le_mem rest m hc' x hx
          simp only [decide_eq_true_eq]
          intro hcon
          exact hm (le_trans this hcon)
        rw [show activeScan ref a (m :: rest) = a by simp [activeScan, hm]]
        rw [show (m :: rest).filter (fun x => decide (x.2 ≤ ref))
              = rest.filter (fun x => decide (x.2 ≤ ref)) by
            simp [List.filter_cons, hm]]
        rw [hnone]
        rfl

/-- Claim C4: for a non-empty, offset-sorted marker list,
`computeActiveByScroll` selects the last marker whose offset is `≤` the
reference line, and the first marker when no offset qualifies (the `getLastD`
default is the first marker's id). -/
theorem computeActiveByScroll_selects_last (m0 : String × ℚ)
    (rest : List (String × ℚ)) (ref : ℚ)
    (hsorted : List.Chain' (fun x y => x.2 ≤ y.2) (m0 :: rest)) :
    computeActiveCandidate (m0 :: rest) ref
      = some ((((m0 :: rest).filter (fun m => decide (m.2 ≤ ref))).map Prod.fst).getLastD
          m0.1) := by
  unfold computeActiveCandidate
  exact congrArg some (activeScan_eq ref (m0 :: rest) m0.1 hsorted)

theorem computeActiveByScroll_selects_last_witness :
    computeActiveCandidate [("a", 0), ("b", 100), ("c", 250)] 120 = some "b" := by
  rw [computeActiveByScroll_selects_last ("a", 0) [("b", 100), ("c", 250)] 120
    (by norm_num [List.chain'_cons])]
  norm_num [List.filter_cons]

/-! ## ScrollSyncController: coalesced active-change commits
(content.js 1564–1587) -/

/-- `this.minActiveChangeInterval = 120` (content.js 27). -/
def minActiveChangeInterval : ℚ := 120

/-- JS truthiness of the nullable string fields (`null` and `''` are falsy). -/
def truthy : Option String → Bool
  | none => false
  | some s => s != ""

/-- The mutable fields of the controller that the tail of
`computeActiveByScroll` reads and writes.  `timers` counts outstanding
`activeChangeTimer` handles and `commits` is a ghost counter incremented
whenever the code path `this.activeTurnId = …; this.updateActiveDotUI();
this.lastActiveChangeTime = …` (a committed active change) runs. -/
structure ActiveState where
  activeTurnId : Option String
  pendingActiveId : Option String
  timers : ℕ
  lastActiveChangeTime : ℚ
  commits : ℕ
  deriving DecidableEq

/-- The tail of `computeActiveByScroll` (content.js 1564–1587) for a freshly
computed candidate `cand` at time `now`: no-op if the candidate equals the
current active id; otherwise commit immediately when at least
`minActiveChangeInterval` has elapsed, else record the candidate as pending
and arm the single commit timer if none exists. -/
def candidateStep (s : ActiveState) (cand : String) (now : ℚ) : ActiveState :=
  if s.activeTurnId = some cand then s
  else if now - s.lastActiveChangeTime < minActiveChangeInterval then
    { s with pendingActiveId := some cand,
             timers := if s.timers = 0 then 1 else s.timers }
  else
    { s with activeTurnId := some cand,
             lastActiveChangeTime := now,
             commits := s.commits + 1 }

/-- The commit-timer callback (content.js 1572–1580): the timer handle is
cleared, the pending id is committed iff it is truthy and differs from the
current active id, and the pending id is reset. -/
def timerFireStep (s : ActiveState) (now : ℚ) : ActiveState :=
  let s1 : ActiveState := { s with timers := s.timers - 1 }
  if truthy s1.pendingActiveId ∧ s1.pendingActiveId ≠ s1.activeTurnId then
    { s1 with activeTurnId := s1.pendingActiveId,
              lastActiveChangeTime := now,
              commits := s1.commits + 1,
              pendingActiveId := none }
  else { s1 with pendingActiveId := none }

/-- Folding a run of rapid candidate changes (each differing from the active
id and arriving inside the rate-limit window) only overwrites the pending id
and arms at most one timer. -/
theorem candidates_fold (cs : List (String × ℚ)) :
    ∀ (s : ActiveState),
      (∀ c ∈ cs, s.activeTurnId ≠ some c.1
        ∧ c.2 - s.lastActiveChangeTime < minActiveChangeInterval) →
      cs ≠ [] →
      cs.foldl (fun s c => candidateStep s c.1 c.2) s
        = { s with pendingActiveId := some (cs.getLastD ("", 0)).1,
                   timers := if s.timers = 0 then 1 else s.timers } := by
  induction cs with
  | nil => intro s _ h; exact absurd rfl h
  | cons c cs ih =>
      intro s hall _
      have hc := hall c (by simp)
      have hstep : candidateStep s c.1 c.2
          = { s with pendingActiveId := some c.1,
                     timers := if s.timers = 0 then 1 else s.timers } := by
        unfold candidateStep
        rw [if_neg (fun h => hc.1 h), if_pos hc.2]
      rw [List.foldl_cons, hstep]
      cases cs with
      | nil => simp [List.getLastD_cons]
      | cons c2 cs2 =>
          rw [ih _ (by
            intro x hx
            have hx' := hall x (List.mem_cons_of_mem c hx)
            simpa using hx') (by simp)]
          have htimers : (if (if s.timers = 0 then 1 else s.timers) = 0 then 1
              else if s.timers = 0 then 1 else s.timers)
              = if s.timers = 0 then 1 else s.timers := by
            by_cases h0 : s.timers = 0
            · simp [h0]
            · simp [h0]
          have hlast : ((c2 :: cs2).getLastD ("", 0)) = ((c :: c2 :: cs2).getLastD ("", 0)) := by
            rw [show (c :: c2 :: cs2).getLastD ("", 0) = (c2 :: cs2).getLastD c from
              List.getLastD_cons ..]
            exact getLastD_irrel' (by simp) _ _
          simp only [htimers, hlast]

/-- Claim C5: for every run of `K ≥ 1` candidate active-id changes arriving
within `minActiveChangeInterval` of the last committed change (each candidate
a nonempty id differing from the current active id, starting with no timer
armed and no pending id), the coalescing logic commits exactly one change when
the timer fires, and the committed id is the last candidate of the run. -/
theorem coalescing_commits_once (s0 : ActiveState) (cs : List (String × ℚ)) (tFire : ℚ)
    (hne : cs ≠ []) (hidle : s0.timers = 0) (_hpend : s0.pendingActiveId = none)
    (hdiff : ∀ c ∈ cs, s0.activeTurnId ≠ some c.1 ∧ c.1 ≠ ""
              ∧ c.2 - s0.lastActiveChangeTime < minActiveChangeInterval) :
    (timerFireStep (cs.foldl (fun s c => candidateStep s c.1 c.2) s0) tFire).activeTurnId
        = some (cs.getLastD ("", 0)).1
    ∧ (timerFireStep (cs.foldl (fun s c => candidateStep s c.1 c.2) s0) tFire).commits
        = s0.commits + 1
    ∧ (timerFireStep (cs.foldl (fun s c => candidateStep s c.1 c.2) s0) tFire).timers = 0
    ∧ (timerFireStep (cs.foldl (fun s c => candidateStep s c.1 c.2) s0) tFire).pendingActiveId
        = none := by
  have hfold := candidates_fold cs s0
      (fun c hc => ⟨(hdiff c hc).1, (hdiff c hc).2.2⟩) hne
  have hlastmem : cs.getLastD ("", 0) ∈ cs := getLastD_mem hne ("", 0)
  have hlast := hdiff _ hlastmem
  rw [hfold, hidle]
  unfold timerFireStep
  rw [if_pos ?_]
  · exact ⟨rfl, rfl, rfl, rfl⟩
  · constructor
    · simp only [truthy]
      exact bne_iff_ne.mpr hlast.2.1
    · intro hcon
      exact hlast.1 hcon.symm

theorem coalescing_commits_once_witness :
    (timerFireStep
        (([("a", 10), ("b", 20)] : List (String × ℚ)).foldl
          (fun s c => candidateStep s c.1 c.2)
          ⟨some "x", none, 0, 0, 0⟩) 120).activeTurnId = some "b"
    ∧ (timerFireStep
        (([("a", 10), ("b", 20)] : List (String × ℚ)).foldl
          (fun s c => candidateStep s c.1 c.2)
          ⟨some "x", none, 0, 0, 0⟩) 120).commits = 0 + 1 := by
  have h := coalescing_commits_once ⟨some "x", none, 0, 0, 0⟩
      [("a", 10), ("b", 20)] 120 (by simp) rfl rfl
      (by
        intro c hc
        rcases List.mem_cons.mp hc with rfl | hc2
        · exact ⟨by simp, by simp, by norm_num [minActiveChangeInterval]⟩
        · rcases List.mem_cons.mp hc2 with rfl | hc3
          · exact ⟨by simp, by simp, by norm_num [minActiveChangeInterval]⟩
          · exact absurd hc3 (List.not_mem_nil c))
  exact ⟨h.1, h.2.1⟩

/-! ## ActiveState invariant across rebuilds
(`recalculateAndRenderMarkers` content.js 459–541,
`computeActiveByScroll` content.js 1548–1588) -/

/-- The engine state touched by marker rebuilds and active-marker decisions. -/
structure TimelineState where
  markers : List String
  activeTurnId : Option String
  pendingActiveId : Option String
  timers : ℕ
  lastActiveChangeTime : ℚ
  deriving DecidableEq

/-- `recalculateAndRenderMarkers` (content.js 459–541): with an empty turn
list the function returns early (scheduling a retry) without touching the
markers; otherwise the marker list is rebuilt and the active id is
initialized to the last marker's id only when it is falsy
(JS: `if (!this.activeTurnId && this.markers.length > 0) this.activeTurnId =
this.markers[this.markers.length - 1].id`). -/
def rebuildStep (s : TimelineState) (ids : List String) : TimelineState :=
  if ids = [] then s
  else
    { s with markers := ids,
             activeTurnId := if truthy s.activeTurnId then s.activeTurnId
                             else some (ids.getLastD "") }

/-- The candidate handling of `computeActiveByScroll` on the rebuild-aware
state (content.js 1564–1587); same logic as `candidateStep`. -/
def tCandidateStep (s : TimelineState) (cand : String) (now : ℚ) : TimelineState :=
  if s.activeTurnId = some cand then s
  else if now - s.lastActiveChangeTime < minActiveChangeInterval then
    { s with pendingActiveId := some cand,
             timers := if s.timers = 0 then 1 else s.timers }
  else
    { s with activeTurnId := some cand, lastActiveChangeTime := now }

/-- The commit-timer callback on the rebuild-aware state
(content.js 1572–1580); same logic as `timerFireStep`. -/
def tTimerFireStep (s : TimelineState) (now : ℚ) : TimelineState :=
  let s1 : TimelineState := { s with timers := s.timers - 1 }
  if truthy s1.pendingActiveId ∧ s1.pendingActiveId ≠ s1.activeTurnId then
    { s1 with activeTurnId := s1.pendingActiveId,
              lastActiveChangeTime := now,
              pendingActiveId := none }
  else { s1 with pendingActiveId := none }

/-- Initial controller state (content.js 5–29): no markers, null active id,
no pending id, no timer. -/
def initTimelineState : TimelineState :=
  { markers := [], activeTurnId := none, pendingActiveId := none,
    timers := 0, lastActiveChangeTime := 0 }

/-- One engine event: a marker rebuild, a candidate computation by
`computeActiveByScroll` (whose candidate is always one of the current
markers' ids, and which only runs when markers exist), or the commit timer
firing (possible only while a timer is outstanding). -/
inductive TimelineStep : TimelineState → TimelineState → Prop
  | rebuild (s : TimelineState) (ids : List String) :
      TimelineStep s (rebuildStep s ids)
  | candidate (s : TimelineState) (cand : String) (now : ℚ)
      (hmem : cand ∈ s.markers) :
      TimelineStep s (tCandidateStep s cand now)
  | fire (s : TimelineState) (now : ℚ) (harmed : s.timers ≠ 0) :
      TimelineStep s (tTimerFireStep s now)

/-- States reachable from the initial state by engine events. -/
inductive TimelineReachable : TimelineState → Prop
  | init : TimelineReachable initTimelineState
  | step {s t : TimelineState} :
      TimelineReachable s → TimelineStep s t → TimelineReachable t

/-- Claim C6 (counterexample): after a rebuild that replaces marker `A` by
marker `B`, the reachable state has a non-empty marker list whose active id
`A` is not among the current markers — the rebuild keeps a stale active id
because it only initializes `activeTurnId` when it is falsy. -/
theorem active_id_invariant_counterexample :
    ∃ s : TimelineState, TimelineReachable s ∧ s.markers ≠ []
      ∧ ∃ a, s.activeTurnId = some a ∧ a ∉ s.markers := by
  refine ⟨rebuildStep (rebuildStep initTimelineState ["A"]) ["B"], ?_, ?_, "A", ?_, ?_⟩
  · exact TimelineReachable.step
      (TimelineReachable.step TimelineReachable.init (TimelineStep.rebuild _ ["A"]))
      (TimelineStep.rebuild _ ["B"])
  · simp [rebuildStep, initTimelineState, truthy]
  · simp [rebuildStep, initTimelineState, truthy]
  · simp [rebuildStep, initTimelineState, truthy]

/-- Claim C6 (amended): in every reachable state at most one pending commit
timer exists, and while the marker list is (still) empty the active id and
the pending id are null.  After a rebuild the active id may instead be a
stale id from a previous marker list, as the counterexample shows. -/
theorem active_state_invariant_amended (s : TimelineState)
    (h : TimelineReachable s) :
    s.timers ≤ 1 ∧ (s.markers = [] → s.activeTurnId = none ∧ s.pendingActiveId = none) := by
  induction h with
  | init => simp [initTimelineState]
  | step hr hstep ih =>
      rename_i s' t
      cases hstep with
      | rebuild ids =>
          unfold rebuildStep
          split
          · exact ih
          next hne =>
            refine ⟨ih.1, ?_⟩
            intro hcon
            exact absurd hcon hne
      | candidate cand now hmem =>
          have hmne : s'.markers ≠ [] := by
            intro hcon
            rw [hcon] at hmem
            exact List.not_mem_nil cand hmem
          unfold tCandidateStep
          split
          · exact ih
          · split
            · refine ⟨?_, ?_⟩
              · simp only []
                split
                · exact le_refl 1
                · exact ih.1
              · intro hcon
                exact absurd hcon hmne
            · exact ⟨ih.1, fun hcon => absurd hcon hmne⟩
      | fire now harmed =>
          simp only [tTimerFireStep]
          have htimers : s'.timers - 1 ≤ 1 := by omega
          split
          · refine ⟨htimers, ?_⟩
            intro hcon
            rename_i hcommit
            have hpend := (ih.2 hcon).2
            rw [hpend] at hcommit
            simp [truthy] at hcommit
          · exact ⟨htimers, fun hcon => ⟨(ih.2 hcon).1, rfl⟩⟩

theorem active_state_invariant_amended_witness :
    initTimelineState.timers ≤ 1 :=
  (active_state_invariant_amended initTimelineState TimelineReachable.init).1

/-! ## TooltipLayoutEngine (`computePlacementInfo`, content.js 1464–1497) -/

inductive Side
  | left
  | right
  deriving DecidableEq

/-- The descending width tier list of `computePlacementInfo`
(content.js 1481: `const tiers = [280, 240, 200, 160]`). -/
def tiers : List ℚ := [280, 240, 200, 160]

/-- The combined visual gap (content.js 1471):
`baseGap + Math.max(0, arrowOut) + Math.max(0, boxGap)`. -/
def tooltipGap (arrowOut baseGap boxGap : ℚ) : ℚ :=
  baseGap + max 0 arrowOut + max 0 boxGap

/-- Space available left of the anchor (content.js 1476):
`Math.max(0, dotRect.left - gap - viewportPad)` with `viewportPad = 8`. -/
def leftAvailOf (dotLeft gap : ℚ) : ℚ := max 0 (dotLeft - gap - 8)

/-- Space available right of the anchor (content.js 1477):
`Math.max(0, vw - dotRect.right - gap - viewportPad)`. -/
def rightAvailOf (dotRight vw gap : ℚ) : ℚ := max 0 (vw - dotRight - gap - 8)

/-- The available space on the chosen side (content.js 1478–1479). -/
def chosenAvail (dotLeft dotRight vw gap : ℚ) : ℚ :=
  if leftAvailOf dotLeft gap < rightAvailOf dotRight vw gap
  then rightAvailOf dotRight vw gap else leftAvailOf dotLeft gap

/-- `computePlacementInfo(dot)` (content.js 1464–1497) with the DOM/CSS reads
passed as parameters (CSS defaults: `arrowOut` 6, `baseGap` 12, `boxGap` 8,
`maxW` 288; `minW = 160` is hard-coded).  Returns the placement side and the
final width `Math.max(120, Math.min(width, maxW))`. -/
def computePlacementInfo (dotLeft dotRight vw arrowOut baseGap boxGap maxW : ℚ) :
    Side × ℚ :=
  let gap := tooltipGap arrowOut baseGap boxGap
  let minW : ℚ := 160
  let leftAvail := leftAvailOf dotLeft gap
  let rightAvail := rightAvailOf dotRight vw gap
  let placement : Side := if leftAvail < rightAvail then Side.right else Side.left
  let avail := if placement = Side.right then rightAvail else leftAvail
  let hardMax := max minW (min maxW ((⌊avail⌋ : ℤ) : ℚ))
  let width := (tiers.find? (fun t => decide (t ≤ hardMax))).getD
    (max minW (min hardMax 160))
  if width < minW ∧ placement = Side.left ∧ leftAvail < rightAvail then
    let hardMax2 := max minW (min maxW ((⌊rightAvail⌋ : ℤ) : ℚ))
    let width2 := (tiers.find? (fun t => decide (t ≤ hardMax2))).getD
      (max 120 (min hardMax2 minW))
    (Side.right, max 120 (min width2 maxW))
  else if width < minW ∧ placement = Side.right ∧ rightAvail ≤ leftAvail then
    let hardMax2 := max minW (min maxW ((⌊leftAvail⌋ : ℤ) : ℚ))
    let width2 := (tiers.find? (fun t => decide (t ≤ hardMax2))).getD
      (max 120 (min hardMax2 minW))
    (Side.left, max 120 (min width2 maxW))
  else (placement, max 120 (min width maxW))

/-- `tiers.find(t => t <= hardMax)` picks the largest tier below `hardMax`
whenever `160 ≤ hardMax` (which always holds for the `hardMax` the code
builds). -/
theorem find_tier_spec (hm : ℚ) (h : (160:ℚ) ≤ hm) :
    ∃ t, tiers.find? (fun u => decide (u ≤ hm)) = some t ∧ t ∈ tiers ∧ 160 ≤ t
      ∧ t ≤ hm ∧ ∀ u ∈ tiers, u ≤ hm → u ≤ t := by
  rcases le_or_lt 280 hm with h280 | h280
  · refine ⟨280, ?_, by simp [tiers], by norm_num, h280, ?_⟩
    · rw [tiers, List.find?_cons_of_pos _ (by simpa using h280)]
    · intro u hu _
      simp only [tiers, List.mem_cons, List.not_mem_nil, or_false] at hu
      rcases hu with rfl | rfl | rfl | rfl <;> norm_num
  · rcases le_or_lt 240 hm with h240 | h240
    · refine ⟨240, ?_, by simp [tiers], by norm_num, h240, ?_⟩
      · rw [tiers, List.find?_cons_of_neg _ (by simpa using not_le.mpr h280),
          List.find?_cons_of_pos _ (by simpa using h240)]
      · intro u hu hule
        simp only [tiers, List.mem_cons, List.not_mem_nil, or_false] at hu
        rcases hu with rfl | rfl | rfl | rfl <;> linarith
    · rcases le_or_lt 200 hm with h200 | h200
      · refine ⟨200, ?_, by simp [tiers], by norm_num, h200, ?_⟩
        · rw [tiers, List.find?_cons_of_neg _ (by simpa using not_le.mpr h280),
            List.find?_cons_of_neg _ (by simpa using not_le.mpr h240),
            List.find?_cons_of_pos _ (by simpa using h200)]
        · intro u hu hule
          simp only [tiers, List.mem_cons, List.not_mem_nil, or_false] at hu
          rcases hu with rfl | rfl | rfl | rfl <;> linarith
      · refine ⟨160, ?_, by simp [tiers], by norm_num, h, ?_⟩
        · rw [tiers, List.find?_cons_of_neg _ (by simpa using not_le.mpr h280),
            List.find?_cons_of_neg _ (by simpa using not_le.mpr h240),
            List.find?_cons_of_neg _ (by simpa using not_le.mpr h200),
            List.find?_cons_of_pos _ (by simpa using h)]
        · intro u hu hule
          simp only [tiers, List.mem_cons, List.not_mem_nil, or_false] at hu
          rcases hu with rfl | rfl | rfl | rfl <;> linarith

/-- Claim C7 (amended): `computePlacementInfo` chooses the side with more
available room (ties go left), and returns the largest tier not exceeding
`hardMax = max(160, min(maxW, ⌊avail⌋))`, clamped to `[120, maxW]`.  Whenever
the chosen side's space capped at `maxW` admits the minimum tier
(`160 ≤ min(maxW, ⌊avail⌋)`) this is the largest tier that fits the available
space; otherwise the code falls back to the `160` tier even though it exceeds
the space, and the retry-other-side branches are unreachable (the result is
always the side chosen first). -/
theorem computePlacementInfo_spec_core
    (dotLeft dotRight vw arrowOut baseGap boxGap maxW : ℚ) :
    ∃ t ∈ tiers,
      computePlacementInfo dotLeft dotRight vw arrowOut baseGap boxGap maxW
        = (if leftAvailOf dotLeft (tooltipGap arrowOut baseGap boxGap)
              < rightAvailOf dotRight vw (tooltipGap arrowOut baseGap boxGap)
           then Side.right else Side.left,
           max 120 (min t maxW))
      ∧ t ≤ max 160 (min maxW
          ((⌊chosenAvail dotLeft dotRight vw (tooltipGap arrowOut baseGap boxGap)⌋ : ℤ) : ℚ))
      ∧ (∀ u ∈ tiers, u ≤ max 160 (min maxW
          ((⌊chosenAvail dotLeft dotRight vw (tooltipGap arrowOut baseGap boxGap)⌋ : ℤ) : ℚ))
          → u ≤ t)
      ∧ ((160:ℚ) ≤ min maxW
            ((⌊chosenAvail dotLeft dotRight vw (tooltipGap arrowOut baseGap boxGap)⌋ : ℤ) : ℚ) →
          max 120 (min t maxW)
            ≤ chosenAvail dotLeft dotRight vw (tooltipGap arrowOut baseGap boxGap)) := by
  set gap := tooltipGap arrowOut baseGap boxGap with hgap
  set la := leftAvailOf dotLeft gap with hla
  set ra := rightAvailOf dotRight vw gap with hra
  set av := chosenAvail dotLeft dotRight vw gap with hav
  obtain ⟨t, hfind, htmem, ht160, hthm, hlargest⟩ :=
    find_tier_spec (max 160 (min maxW ((⌊av⌋ : ℤ) : ℚ))) (le_max_left _ _)
  have hfits : (160:ℚ) ≤ min maxW ((⌊av⌋ : ℤ) : ℚ) → max 120 (min t maxW) ≤ av := by
    intro h160
    have hmx : (160:ℚ) ≤ maxW := le_trans h160 (min_le_left _ _)
    have hfl : ((⌊av⌋ : ℤ) : ℚ) ≤ av := Int.floor_le av
    have h3 : t ≤ av := by
      have h1 : max 160 (min maxW ((⌊av⌋:ℤ):ℚ)) = min maxW ((⌊av⌋:ℤ):ℚ) :=
        max_eq_right h160
      have := hthm
      rw [h1] at this
      exact le_trans this (le_trans (min_le_right _ _) hfl)
    have h4 : (120:ℚ) ≤ min t maxW := le_min (by linarith) (by linarith)
    rw [max_eq_right h4]
    exact le_trans (min_le_left _ _) h3
  refine ⟨t, htmem, ?_, hthm, hlargest, hfits⟩
  by_cases hlr : la < ra
  · have hav' : av = ra := by
      rw [hav]
      unfold chosenAvail
      rw [← hla, ← hra, if_pos hlr]
    have hfind' := hfind
    rw [hav'] at hfind'
    simp only [computePlacementInfo, ← hgap, ← hla, ← hra]
    rw [if_pos hlr]
    simp only [reduceIte]
    rw [hfind']
    simp only [Option.getD_some]
    rw [if_neg (by rintro ⟨-, hside, -⟩; exact absurd hside (by simp)),
      if_neg (by rintro ⟨-, -, hle⟩; exact absurd hlr (not_lt.mpr hle))]
  · have hav' : av = la := by
      rw [hav]
      unfold chosenAvail
      rw [← hla, ← hra, if_neg hlr]
    have hfind' := hfind
    rw [hav'] at hfind'
    simp only [computePlacementInfo, ← hgap, ← hla, ← hra]
    rw [if_neg hlr]
    simp only [reduceIte]
    rw [show (if Side.left = Side.right then ra else la) = la from by simp]
    rw [hfind']
    simp only [Option.getD_some]
    rw [if_neg (by rintro ⟨-, -, hlt⟩; exact hlr hlt),
      if_neg (by rintro ⟨-, hside, -⟩; exact absurd hside (by simp))]

/-- Claim C7 (amended): restatement of `computePlacementInfo_spec_core` — the
side with more room is chosen (ties left); the returned width is the largest
tier below `max(160, min(maxW, ⌊avail⌋))` clamped to `[120, maxW]`, fitting
the chosen side's space exactly when `160 ≤ min(maxW, ⌊avail⌋)`; the
retry-other-side branch never executes. -/
theorem computePlacementInfo_amended
    (dotLeft dotRight vw arrowOut baseGap boxGap maxW : ℚ) :
    ∃ t ∈ tiers,
      computePlacementInfo dotLeft dotRight vw arrowOut baseGap boxGap maxW
        = (if leftAvailOf dotLeft (tooltipGap arrowOut baseGap boxGap)
              < rightAvailOf dotRight vw (tooltipGap arrowOut baseGap boxGap)
           then Side.right else Side.left,
           max 120 (min t maxW))
      ∧ t ≤ max 160 (min maxW
          ((⌊chosenAvail dotLeft dotRight vw (tooltipGap arrowOut baseGap boxGap)⌋ : ℤ) : ℚ))
      ∧ (∀ u ∈ tiers, u ≤ max 160 (min maxW
          ((⌊chosenAvail dotLeft dotRight vw (tooltipGap arrowOut baseGap boxGap)⌋ : ℤ) : ℚ))
          → u ≤ t)
      ∧ ((160:ℚ) ≤ min maxW
            ((⌊chosenAvail dotLeft dotRight vw (tooltipGap arrowOut baseGap boxGap)⌋ : ℤ) : ℚ) →
          max 120 (min t maxW)
            ≤ chosenAvail dotLeft dotRight vw (tooltipGap arrowOut baseGap boxGap)) :=
  computePlacementInfo_spec_core dotLeft dotRight vw arrowOut baseGap boxGap maxW

/-- Claim C7 (counterexample): with the anchor at `[100, 110]` in a `220`-wide
viewport (CSS defaults), the right side is chosen with `76px` available, yet
the returned width is the minimum tier `160`, which does not fit the chosen
side's available space — refuting "pick the largest tier that fits the chosen
side", and no retry of the other side happens. -/
theorem computePlacementInfo_fit_counterexample :
    computePlacementInfo 100 110 220 6 12 8 288 = (Side.right, 160)
    ∧ rightAvailOf 110 220 (tooltipGap 6 12 8) = 76
    ∧ ¬ ((computePlacementInfo 100 110 220 6 12 8 288).2
          ≤ rightAvailOf 110 220 (tooltipGap 6 12 8)) := by
  have hgap : tooltipGap 6 12 8 = 26 := by norm_num [tooltipGap]
  have hra : rightAvailOf 110 220 (tooltipGap 6 12 8) = 76 := by
    rw [hgap]
    norm_num [rightAvailOf]
  have hla : leftAvailOf 100 (tooltipGap 6 12 8) = 66 := by
    rw [hgap]
    norm_num [leftAvailOf]
  have hav : chosenAvail 100 110 220 (tooltipGap 6 12 8) = 76 := by
    unfold chosenAvail
    rw [hra, hla, if_pos (by norm_num)]
  have hfl : ((⌊(76:ℚ)⌋ : ℤ) : ℚ) = 76 := by
    norm_num
  obtain ⟨t, htmem, heq, hthm, -, -⟩ :=
    computePlacementInfo_spec_core 100 110 220 6 12 8 288
  rw [hav, hfl] at hthm
  have ht : t = 160 := by
    have h160 : t ≤ 160 := by
      have : max (160:ℚ) (min 288 76) = 160 := by norm_num
      rw [this] at hthm
      exact hthm
    simp only [tiers, List.mem_cons, List.not_mem_nil, or_false] at htmem
    rcases htmem with rfl | rfl | rfl | rfl <;> linarith
  rw [ht] at heq
  rw [hla, hra, if_pos (by norm_num : (66:ℚ) < 76)] at heq
  have hres : computePlacementInfo 100 110 220 6 12 8 288 = (Side.right, 160) := by
    rw [heq]
    norm_num
  refine ⟨hres, hra, ?_⟩
  rw [hres, hra]
  norm_num

theorem computePlacementInfo_amended_witness :
    computePlacementInfo 500 510 900 6 12 8 288 = (Side.left, 280) := by
  have hgap : tooltipGap 6 12 8 = 26 := by norm_num [tooltipGap]
  have hla : leftAvailOf 500 (tooltipGap 6 12 8) = 466 := by
    rw [hgap]
    norm_num [leftAvailOf]
  have hra : rightAvailOf 510 900 (tooltipGap 6 12 8) = 356 := by
    rw [hgap]
    norm_num [rightAvailOf]
  have hav : chosenAvail 500 510 900 (tooltipGap 6 12 8) = 466 := by
    unfold chosenAvail
    rw [hla, hra, if_neg (by norm_num)]
  have hfl : ((⌊(466:ℚ)⌋ : ℤ) : ℚ) = 466 := by norm_num
  obtain ⟨t, htmem, heq, hthm, hlargest, -⟩ :=
    computePlacementInfo_amended 500 510 900 6 12 8 288
  rw [hav, hfl] at hthm hlargest
  have h288 : max (160:ℚ) (min 288 466) = 288 := by norm_num
  rw [h288] at hthm hlargest
  have ht280 : (280:ℚ) ≤ t := hlargest 280 (by simp [tiers]) (by norm_num)
  have ht : t = 280 := by
    simp only [tiers, List.mem_cons, List.not_mem_nil, or_false] at htmem
    rcases htmem with rfl | rfl | rfl | rfl <;> linarith
  rw [ht, hla, hra, if_neg (by norm_num : ¬ (466:ℚ) < 356)] at heq
  rw [heq]
  norm_num

/-! ## DragConstraintEngine: position persistence
(`savePosition` content.js 5483–5511, `restorePosition` content.js 5513–5555) -/

/-- The persisted position blob written by `savePosition` (content.js
5494–5503): the bar rectangle as percentages of the window size, plus the
window dimensions at save time. -/
structure SavedPosition where
  right : ℚ
  top : ℚ
  width : ℚ
  height : ℚ
  windowWidth : ℚ
  windowHeight : ℚ
  deriving DecidableEq

/-- `savePosition()` (content.js 5483–5511) with the DOM reads passed in:
`rectRight`/`rectTop`/`rectWidth`/`rectHeight` from
`getBoundingClientRect()` and `W`/`H` the window dimensions. -/
def savePosition (rectRight rectTop rectWidth rectHeight W H : ℚ) : SavedPosition :=
  { right := (W - rectRight) / W * 100
    top := rectTop / H * 100
    width := rectWidth / W * 100
    height := rectHeight / H * 100
    windowWidth := W
    windowHeight := H }

/-- `restorePosition()` (content.js 5513–5555): percentages are converted
back using the current window size `(W, H)`, clamped to the margin bounds
computed from the bar's current size, and written as the bar's CSS `right`
and `top` offsets. -/
def restorePosition (saved : SavedPosition) (W H barWidth barHeight : ℚ) : ℚ × ℚ :=
  let right := saved.right / 100 * W
  let top := saved.top / 100 * H
  let margin : ℚ := 10
  let maxRight := W - barWidth - margin
  let maxTop := H - barHeight - margin
  (max margin (min right maxRight), max margin (min top maxTop))

/-- Claim C9: saving a bar rectangle whose CSS offsets
`(W - rectRight, rectTop)` lie within the margin-clamped bounds and restoring
at the same viewport `(W, H)` reproduces the offsets within 1px (in fact
exactly). -/
theorem savePosition_restorePosition_roundtrip
    (rectRight rectTop rectWidth rectHeight W H : ℚ)
    (hW : W ≠ 0) (hH : H ≠ 0)
    (hr1 : 10 ≤ W - rectRight) (hr2 : W - rectRight ≤ W - rectWidth - 10)
    (ht1 : 10 ≤ rectTop) (ht2 : rectTop ≤ H - rectHeight - 10) :
    restorePosition (savePosition rectRight rectTop rectWidth rectHeight W H)
        W H rectWidth rectHeight
      = (W - rectRight, rectTop)
    ∧ |(restorePosition (savePosition rectRight rectTop rectWidth rectHeight W H)
        W H rectWidth rectHeight).1 - (W - rectRight)| ≤ 1
    ∧ |(restorePosition (savePosition rectRight rectTop rectWidth rectHeight W H)
        W H rectWidth rectHeight).2 - rectTop| ≤ 1 := by
  have hright : (W - rectRight) / W * 100 / 100 * W = W - rectRight := by
    field_simp
    ring
  have htop : rectTop / H * 100 / 100 * H = rectTop := by
    field_simp
    ring
  have heq : restorePosition (savePosition rectRight rectTop rectWidth rectHeight W H)
      W H rectWidth rectHeight = (W - rectRight, rectTop) := by
    simp only [restorePosition, savePosition, hright, htop]
    rw [min_eq_left hr2, max_eq_right hr1, min_eq_left ht2, max_eq_right ht1]
  refine ⟨heq, ?_, ?_⟩ <;> rw [heq] <;> simp

theorem savePosition_restorePosition_roundtrip_witness :
    restorePosition (savePosition 900 50 40 200 1000 800) 1000 800 40 200
      = (1000 - 900, 50) :=
  (savePosition_restorePosition_roundtrip 900 50 40 200 1000 800
      (by norm_num) (by norm_num) (by norm_num) (by norm_num)
      (by norm_num) (by norm_num)).1

end ChatGPTTimeline
